import Mathlib

/-!
# The `ctr leases` commands and the CRI container-event stream

A shallow embedding of

* `cmd/ctr/commands/leases/leases.go` (`listCommand`, `createCommand`, `deleteCommand`), and
* `pkg/cri/server/container_events.go` (`criService.GetContainerEvents`).

The commands talk to a leases service and print to standard output.  Both effects are made
explicit: a command is a function from a `World` (the state of the service, the log of the
requests made so far together with the service's answers, and the text printed so far) to an
error result and a new `World`.
-/

set_option autoImplicit false

namespace Leases

/-! ## Data model -/

/-- A Go `error` value, represented by its message. -/
abbrev Error := String

/-- The Go type `time.Duration`: a signed count of nanoseconds. -/
abbrev Duration := Int

/-- The constant `time.Hour`. -/
def Hour : Duration := 60 * 60 * 1000000000

/-- A Go `map[string]string`, kept as the list of its entries (keys pairwise distinct). -/
abbrev Labels := List (String × String)

/-- The struct `leases.Lease`. `CreatedAt` is a `time.Time`, kept as an abstract instant. -/
structure Lease where
  ID : String
  CreatedAt : Int := 0
  Labels : Labels := []
  deriving DecidableEq

/-- The options a `Create` request can carry (`leases.WithLabels`, `leases.WithID`,
`leases.WithExpiration`). -/
inductive Opt where
  | WithLabels (labels : Labels)
  | WithID (id : String)
  | WithExpiration (d : Duration)
  deriving DecidableEq

/-- The options a `Delete` request can carry. -/
inductive DeleteOpt where
  | SynchronousDelete
  deriving DecidableEq

/-- The leases service (`leases.Manager`) as a state machine over its own state `σ`. -/
structure Manager (σ : Type) where
  Create : σ → List Opt → σ × Except Error Lease
  Delete : σ → Lease → List DeleteOpt → σ × Option Error
  List : σ → List String → σ × Except Error (List Lease)

/-- One request made to the leases service, with the answer it gave. -/
inductive Event where
  | List (filters : List String) (res : Except Error (List Lease))
  | Create (opts : List Opt) (res : Except Error Lease)
  | Delete (lease : Lease) (opts : List DeleteOpt) (res : Option Error)

/-- The observable world of a command. -/
structure World (σ : Type) where
  /-- state of the leases service -/
  svc : σ
  /-- requests made to the service so far, oldest first -/
  calls : List Event := []
  /-- arguments of the `fmt.Println` calls so far, oldest first -/
  stdout : List String := []
  /-- text handed to the `tabwriter` so far, oldest first -/
  tw : List String := []
  /-- whether the usage text of the subcommand has been shown -/
  helpShown : Bool := false

/-- What a command's `Action` depends on besides its own flags and arguments. -/
structure Env (σ : Type) where
  /-- result of `commands.NewClient(context)` followed by `client.LeasesService()` -/
  NewClient : Except Error (Manager σ)
  /-- value returned by `cli.ShowSubcommandHelp(context)` -/
  ShowSubcommandHelp : Option Error := none
  /-- text of `t.Local().Format(time.RFC3339)` -/
  formatTime : Int → String := fun _ => ""
  /-- value returned by `tw.Flush()` -/
  Flush : Option Error := none

/-! ## `deleteCommand` -/

/-- Flags and arguments of `ctr leases delete`. -/
structure DeleteContext where
  /-- `context.Args()` -/
  Args : List String
  /-- `context.Bool("sync")` -/
  sync : Bool := false

/-- The options `deleteCommand.Action` builds for the `Delete` request at index `i` of a list
of `n` IDs (lines 181-184). -/
def deleteOptsAt (sync : Bool) (n i : Nat) : List DeleteOpt :=
  if sync && i == n - 1 then [DeleteOpt.SynchronousDelete] else []

/-- The loop `for i, lid := range lids` of `deleteCommand.Action` (lines 180-195), started at
index `i` with `lids` the IDs still to visit and `n = len(lids)` of the whole list. -/
def deleteLoop {σ : Type} (ls : Manager σ) (sync : Bool) (n : Nat) :
    Nat → List String → World σ → Option Error × World σ
  | _, [], w => (none, w)
  | i, lid :: rest, w =>
    let opts := deleteOptsAt sync n i
    let lease : Lease := { ID := lid }
    match ls.Delete w.svc lease opts with
    | (s, some err) =>
      (some err, { w with svc := s, calls := w.calls ++ [Event.Delete lease opts (some err)] })
    | (s, none) =>
      deleteLoop ls sync n (i + 1) rest
        { w with svc := s, calls := w.calls ++ [Event.Delete lease opts none],
                 stdout := w.stdout ++ [lid] }

/-- The `Action` of `deleteCommand`. -/
def deleteCommand {σ : Type} (env : Env σ) (context : DeleteContext) (w : World σ) :
    Option Error × World σ :=
  let lids := context.Args
  if lids.length == 0 then
    (env.ShowSubcommandHelp, { w with helpShown := true })
  else
    match env.NewClient with
    | .error err => (some err, w)
    | .ok ls => deleteLoop ls context.sync lids.length 0 lids w

/-! ## `listCommand` -/

/-- The Go function `sort.Strings`: sorts into ascending order of the built-in string
comparison (lexicographic; on UTF-8 text the order of code points is the order of bytes).
The order is total, so every sorting algorithm returns the same list; insertion sort stands
for the library's. -/
def sort.Strings (x : List String) : List String :=
  x.insertionSort (· ≤ ·)

/-- The Go function `strings.Join`. -/
def strings.Join (elems : List String) (sep : String) : String :=
  sep.intercalate elems

/-- Flags and arguments of `ctr leases list`. -/
structure ListContext where
  /-- `context.Args()` -/
  Args : List String := []
  /-- `context.Bool("quiet")` -/
  quiet : Bool := false

/-- The value of the variable `labels` computed for one lease in the non-quiet branch of
`listCommand.Action` (lines 82-90).  The argument lists the entries of the map `l.Labels` in
the order in which `range` happens to visit them. -/
def labelsColumn (labels : Labels) : String :=
  if labels.length > 0 then
    let pairs : List String := labels.foldl (fun pairs kv => pairs ++ [kv.1 ++ "=" ++ kv.2]) []
    let pairs := sort.Strings pairs
    strings.Join pairs ","
  else
    "-"

/-- The text one lease contributes to the table (the `fmt.Fprintf` of lines 92-95). -/
def leaseRow {σ : Type} (env : Env σ) (l : Lease) : String :=
  l.ID ++ "\t" ++ env.formatTime l.CreatedAt ++ "\t" ++ labelsColumn l.Labels ++ "\t\n"

/-- The `Action` of `listCommand`. -/
def listCommand {σ : Type} (env : Env σ) (context : ListContext) (w : World σ) :
    Option Error × World σ :=
  let filters := context.Args
  let quiet := context.quiet
  match env.NewClient with
  | .error err => (some err, w)
  | .ok ls =>
    match ls.List w.svc filters with
    | (s, .error err) =>
      (some ("failed to list leases: " ++ err),
        { w with svc := s, calls := w.calls ++ [Event.List filters (.error err)] })
    | (s, .ok leaseList) =>
      let w1 : World σ :=
        { w with svc := s, calls := w.calls ++ [Event.List filters (.ok leaseList)] }
      if quiet then
        (none, leaseList.foldl (fun w l => { w with stdout := w.stdout ++ [l.ID] }) w1)
      else
        let w2 : World σ := { w1 with tw := w1.tw ++ ["ID\tCREATED AT\tLABELS\t\n"] }
        let w3 := leaseList.foldl (fun w l => { w with tw := w.tw ++ [leaseRow env l] }) w2
        (env.Flush, w3)

/-! ## `createCommand` -/

/-- The Go function `strings.Index`, on the characters of the two strings: the position of
the first occurrence of `substr` in `s`, if there is one. -/
def strings.Index : List Char → List Char → Option Nat
  | [], substr => if substr.isEmpty then some 0 else none
  | c :: t, substr =>
    if substr.isPrefixOf (c :: t) then some 0 else (strings.Index t substr).map (· + 1)

/-- The Go function `strings.Cut`: slices `s` around the first instance of `sep`. -/
def strings.Cut (s sep : String) : String × String × Bool :=
  match strings.Index s.data sep.data with
  | some i => (⟨s.data.take i⟩, ⟨s.data.drop (i + sep.data.length)⟩, true)
  | none => (s, "", false)

/-- The Go map assignment `labels[k] = v`. -/
def Labels.set : Labels → String → String → Labels
  | [], k, v => [(k, v)]
  | e :: m, k, v => if e.1 = k then (k, v) :: m else e :: Labels.set m k v

/-- The Go map lookup `labels[k]`, `none` when the key is absent. -/
def Labels.get : Labels → String → Option String
  | [], _ => none
  | e :: m, k => if e.1 = k then some e.2 else Labels.get m k

/-- The keys of a Go map. -/
def Labels.keys (m : Labels) : List String :=
  m.map (·.1)

/-- Flags and arguments of `ctr leases create`. -/
structure CreateContext where
  /-- `context.Args()` -/
  Args : List String := []
  /-- the value given to `--id`, when the flag is on the command line -/
  id : Option String := none
  /-- the value given to `--expires` (or `-x`), when the flag is on the command line -/
  expires : Option Duration := none

/-- The field `Value` of the flag `expires, x` of `createCommand` (line 115). -/
def expiresValue : Duration := 24 * Hour

/-- The lookup `context.String(name)` for the flags of `createCommand`: the value given on the
command line, else the flag's `Value` (the empty string for `id`). -/
def CreateContext.lookupString (context : CreateContext) (name : String) : String :=
  if name = "id" then context.id.getD "" else ""

/-- The lookup `context.Duration(name)` for the flags of `createCommand`: the value given on
the command line, else the flag's `Value`. -/
def CreateContext.lookupDuration (context : CreateContext) (name : String) : Duration :=
  if name = "expires" ∨ name = "x" then context.expires.getD expiresValue else 0

/-- The map `labels` that `createCommand.Action` fills from the label arguments
(lines 129-133). -/
def labelsOf (labelstr : List String) : Labels :=
  labelstr.foldl (fun labels lstr =>
    let kv := strings.Cut lstr "="
    Labels.set labels kv.1 kv.2.1) []

/-- The options `createCommand.Action` assembles for its `Create` request (lines 127-142). -/
def createOpts (context : CreateContext) : List Opt :=
  let labelstr := context.Args
  let opts : List Opt := []
  let opts :=
    if labelstr.length > 0 then
      let labels := labelsOf labelstr
      opts ++ [Opt.WithLabels labels]
    else opts
  let id := context.lookupString "id"
  let opts := if id != "" then opts ++ [Opt.WithID id] else opts
  let exp := context.lookupDuration "expires"
  let opts := if exp > 0 then opts ++ [Opt.WithExpiration exp] else opts
  opts

/-- The `Action` of `createCommand`. -/
def createCommand {σ : Type} (env : Env σ) (context : CreateContext) (w : World σ) :
    Option Error × World σ :=
  match env.NewClient with
  | .error err => (some err, w)
  | .ok ls =>
    let opts := createOpts context
    match ls.Create w.svc opts with
    | (s, .error err) =>
      (some err, { w with svc := s, calls := w.calls ++ [Event.Create opts (.error err)] })
    | (s, .ok l) =>
      (none, { w with svc := s, calls := w.calls ++ [Event.Create opts (.ok l)],
                      stdout := w.stdout ++ [l.ID] })

/-! ## Auxiliary definitions for the statements and proofs -/

/-- The log of a run of successful `Delete` requests for `lids`, the first at index `i`. -/
def okDeletes (sync : Bool) (n : Nat) : Nat → List String → List Event
  | _, [] => []
  | i, lid :: rest =>
    Event.Delete { ID := lid } (deleteOptsAt sync n i) none :: okDeletes sync n (i + 1) rest

/-- In the spec's words: `k` is the text of `arg` before its first `=` and `v` the text after
it, or `arg` has no `=`, `k` is all of `arg` and `v` is empty. -/
def SplitsAtFirstEq (arg k v : String) : Prop :=
  ('=' ∉ k.data ∧ arg = k ++ "=" ++ v) ∨ ('=' ∉ arg.data ∧ k = arg ∧ v = "")

instance (arg k v : String) : Decidable (SplitsAtFirstEq arg k v) := by
  unfold SplitsAtFirstEq
  infer_instance

/-- A log is served by the service from state `s` to state `t`: every logged answer is the
answer the service gives to the logged request in the state reached by the requests before
it, and `t` is the state after the last request. -/
def Served {σ : Type} (ls : Manager σ) : σ → List Event → σ → Prop
  | s, [], t => t = s
  | s, Event.List filters res :: rest, t =>
    (ls.List s filters).2 = res ∧ Served ls (ls.List s filters).1 rest t
  | s, Event.Create opts res :: rest, t =>
    (ls.Create s opts).2 = res ∧ Served ls (ls.Create s opts).1 rest t
  | s, Event.Delete lease opts res :: rest, t =>
    (ls.Delete s lease opts).2 = res ∧ Served ls (ls.Delete s lease opts).1 rest t

/-- The state after, and the answers of the service to, a sequence of `Delete` requests made
one after the other from state `s`. -/
def serveDeletes {σ : Type} (ls : Manager σ) :
    σ → List (Lease × List DeleteOpt) → σ × List (Option Error)
  | s, [] => (s, [])
  | s, q :: rest =>
    ((serveDeletes ls (ls.Delete s q.1 q.2).1 rest).1,
      (ls.Delete s q.1 q.2).2 :: (serveDeletes ls (ls.Delete s q.1 q.2).1 rest).2)

/-- In the spec's words: one `Delete` request per ID, in the order of the list, the request at
position `i` marked synchronous exactly when `--sync` is given and `i` is the last position. -/
def expectedDeletes (sync : Bool) (lids : List String) : List (Lease × List DeleteOpt) :=
  lids.enum.map (fun p =>
    ({ ID := p.2 },
      if sync = true ∧ p.1 + 1 = lids.length then [DeleteOpt.SynchronousDelete] else []))

/-- The requests the loop of `deleteCommand` makes for `lids` from index `i` on when none of
them fails. -/
def deleteReqs (sync : Bool) (n : Nat) : Nat → List String → List (Lease × List DeleteOpt)
  | _, [] => []
  | i, lid :: rest => ({ ID := lid }, deleteOptsAt sync n i) :: deleteReqs sync n (i + 1) rest

/-- A leases service for examples: its state counts the requests served, `Create` uses the
requested ID or else picks `"generated"`, `Delete` fails on the ID `"missing"` only, and
`List` returns two leases. -/
def demoManager : Manager Nat where
  Create := fun s opts =>
    (s + 1, .ok { ID := (opts.filterMap (fun o =>
      match o with
      | Opt.WithID id => some id
      | _ => none)).headD "generated" })
  Delete := fun s lease _ => (s + 1, if lease.ID = "missing" then some "not found" else none)
  List := fun s _ =>
    (s + 1, .ok [{ ID := "a" }, { ID := "b", Labels := [("zone", "eu"), ("app", "web")] }])

/-- An environment for examples in which the client is obtained. -/
def demoEnv : Env Nat where
  NewClient := .ok demoManager

end Leases

/-! ## `criService.GetContainerEvents` -/

namespace Server

open Leases (Error)

/-- What the receive loop gets from the channel `c.containerEventsChan`: the events delivered
to it, in order, and whether the channel is closed after the last of them. -/
structure Chan (ε : Type) where
  events : List ε
  closed : Bool

/-- The subscriber stream `runtime.RuntimeService_GetContainerEventsServer`, as a state
machine over its own state `τ`. -/
structure EventsServer (τ ε : Type) where
  Send : τ → ε → τ × Option Error

/-- How a call ends: it returns an error value (`none` for `nil`), or it stays blocked in a
receive on a channel that is empty and not closed. -/
inductive Outcome where
  | returned (err : Option Error)
  | blocked
  deriving DecidableEq

/-- The state of a subscriber: the stream's state and the `Send` calls made so far with their
results, oldest first. -/
structure Subscriber (τ ε : Type) where
  stream : τ
  sent : List (ε × Option Error) := []

/-- A record of `Send` calls is delivered by the stream from state `t` to state `u`: every
recorded result is the result the stream gives for the recorded event in the state reached by
the calls before it, and `u` is the state after the last call. -/
def Delivered {τ ε : Type} (s : EventsServer τ ε) :
    τ → List (ε × Option Error) → τ → Prop
  | t, [], u => u = t
  | t, c :: rest, u => (s.Send t c.1).2 = c.2 ∧ Delivered s (s.Send t c.1).1 rest u

/-- The loop `for event := range c.containerEventsChan` of `GetContainerEvents` over the
events still to come. -/
def receiveLoop {τ ε : Type} (s : EventsServer τ ε) (closed : Bool) :
    List ε → Subscriber τ ε → Outcome × Subscriber τ ε
  | [], sub => (if closed then Outcome.returned none else Outcome.blocked, sub)
  | event :: rest, sub =>
    match s.Send sub.stream event with
    | (t, some err) =>
      (Outcome.returned (some err), { stream := t, sent := sub.sent ++ [(event, some err)] })
    | (t, none) =>
      receiveLoop s closed rest { stream := t, sent := sub.sent ++ [(event, none)] }

/-- The method `criService.GetContainerEvents`. -/
def GetContainerEvents {τ ε : Type} (containerEventsChan : Chan ε) (s : EventsServer τ ε)
    (sub : Subscriber τ ε) : Outcome × Subscriber τ ε :=
  receiveLoop s containerEventsChan.closed containerEventsChan.events sub

end Server

/-! # Theorems -/

namespace Leases

/-! ## Facts about `deleteCommand` -/

theorem okDeletes_append (sync : Bool) (n : Nat) (pre post : List String) (i : Nat) :
    okDeletes sync n i (pre ++ post) =
      okDeletes sync n i pre ++ okDeletes sync n (i + pre.length) post := by
  induction pre generalizing i with
  | nil => simp [okDeletes]
  | cons a pre ih =>
    have e : i + 1 + pre.length = i + (pre.length + 1) := by omega
    simp [okDeletes, ih (i + 1), e]

theorem okDeletes_length (sync : Bool) (n : Nat) (lids : List String) (i : Nat) :
    (okDeletes sync n i lids).length = lids.length := by
  induction lids generalizing i with
  | nil => rfl
  | cons a lids ih => simp [okDeletes, ih]

theorem okDeletes_getElem? (sync : Bool) (n : Nat) (lids : List String) (i j : Nat)
    (h : j < lids.length) :
    (okDeletes sync n i lids)[j]? =
      some (Event.Delete { ID := lids[j] } (deleteOptsAt sync n (i + j)) none) := by
  induction lids generalizing i j with
  | nil => simp at h
  | cons a lids ih =>
    cases j with
    | zero => simp [okDeletes]
    | succ j =>
      simp only [List.length_cons, Nat.add_lt_add_iff_right] at h
      simp only [okDeletes, List.getElem?_cons_succ, List.getElem_cons_succ]
      have e : i + 1 + j = i + (j + 1) := by omega
      rw [ih (i + 1) j h, e]

theorem okDeletes_eq_zipWith (sync : Bool) (n : Nat) (lids : List String) (i : Nat) :
    ∃ optss : List (List DeleteOpt), optss.length = lids.length ∧
      okDeletes sync n i lids =
        List.zipWith (fun lid opts => Event.Delete { ID := lid } opts none) lids optss := by
  induction lids generalizing i with
  | nil => exact ⟨[], rfl, rfl⟩
  | cons a lids ih =>
    obtain ⟨optss, hl, he⟩ := ih (i + 1)
    exact ⟨deleteOptsAt sync n i :: optss, by simp [hl], by simp [okDeletes, he]⟩

theorem okDeletes_mem (sync : Bool) (n : Nat) (lids : List String) (i : Nat)
    (lease : Lease) (opts : List DeleteOpt) (res : Option Error)
    (h : Event.Delete lease opts res ∈ okDeletes sync n i lids) : res = none := by
  induction lids generalizing i with
  | nil => simp [okDeletes] at h
  | cons a lids ih =>
    simp only [okDeletes, List.mem_cons, Event.Delete.injEq] at h
    rcases h with h | h
    · exact h.2.2
    · exact ih (i + 1) h

/-- What the loop of `deleteCommand` does: either every request succeeds, or the requests stop
at the first failure. -/
theorem deleteLoop_spec {σ : Type} (ls : Manager σ) (sync : Bool) (n : Nat)
    (lids : List String) (i : Nat) (w : World σ) :
    ((deleteLoop ls sync n i lids w).1 = none ∧
      (deleteLoop ls sync n i lids w).2.calls = w.calls ++ okDeletes sync n i lids ∧
      (deleteLoop ls sync n i lids w).2.stdout = w.stdout ++ lids) ∨
    (∃ pre lid post err, lids = pre ++ lid :: post ∧
      (deleteLoop ls sync n i lids w).1 = some err ∧
      (deleteLoop ls sync n i lids w).2.calls =
        w.calls ++ okDeletes sync n i pre ++
          [Event.Delete { ID := lid } (deleteOptsAt sync n (i + pre.length)) (some err)] ∧
      (deleteLoop ls sync n i lids w).2.stdout = w.stdout ++ pre) := by
  induction lids generalizing i w with
  | nil => left; simp [deleteLoop, okDeletes]
  | cons a lids ih =>
    rcases hd : ls.Delete w.svc { ID := a } (deleteOptsAt sync n i) with ⟨t, _ | err⟩
    · have hstep : deleteLoop ls sync n i (a :: lids) w =
          deleteLoop ls sync n (i + 1) lids
            { w with svc := t,
                     calls := w.calls ++ [Event.Delete { ID := a } (deleteOptsAt sync n i) none],
                     stdout := w.stdout ++ [a] } := by
        simp only [deleteLoop, hd]
      rw [hstep]
      rcases ih (i + 1) _ with ⟨h1, h2, h3⟩ | ⟨pre, lid, post, err, h0, h1, h2, h3⟩
      · left
        refine ⟨h1, ?_, ?_⟩
        · rw [h2]; simp [okDeletes]
        · rw [h3]; simp
      · right
        refine ⟨a :: pre, lid, post, err, by simp [h0], h1, ?_, ?_⟩
        · rw [h2]
          have e : i + 1 + pre.length = i + (pre.length + 1) := by omega
          simp [okDeletes, e]
        · rw [h3]; simp
    · have hstep : deleteLoop ls sync n i (a :: lids) w =
          (some err,
            { w with svc := t,
                     calls := w.calls ++
                       [Event.Delete { ID := a } (deleteOptsAt sync n i) (some err)] }) := by
        simp only [deleteLoop, hd]
      rw [hstep]
      right
      exact ⟨[], a, lids, err, rfl, rfl, by simp [okDeletes], by simp⟩

theorem deleteCommand_eq_loop {σ : Type} (env : Env σ) (ls : Manager σ)
    (context : DeleteContext) (w : World σ)
    (hne : context.Args ≠ []) (hc : env.NewClient = .ok ls) :
    deleteCommand env context w =
      deleteLoop ls context.sync context.Args.length 0 context.Args w := by
  have hl : ¬ context.Args.length = 0 := by
    intro h; exact hne (List.length_eq_zero.mp h)
  simp [deleteCommand, hl, hc]

theorem deleteLoop_served {σ : Type} (ls : Manager σ) (sync : Bool) (n : Nat)
    (lids : List String) (i : Nat) (w : World σ) :
    ∃ new, (deleteLoop ls sync n i lids w).2.calls = w.calls ++ new ∧
      Served ls w.svc new (deleteLoop ls sync n i lids w).2.svc := by
  induction lids generalizing i w with
  | nil => exact ⟨[], by simp [deleteLoop], by simp [deleteLoop, Served]⟩
  | cons a lids ih =>
    rcases hd : ls.Delete w.svc { ID := a } (deleteOptsAt sync n i) with ⟨t, _ | err⟩
    · have hstep : deleteLoop ls sync n i (a :: lids) w =
          deleteLoop ls sync n (i + 1) lids
            { w with svc := t,
                     calls := w.calls ++ [Event.Delete { ID := a } (deleteOptsAt sync n i) none],
                     stdout := w.stdout ++ [a] } := by
        simp only [deleteLoop, hd]
      rw [hstep]
      obtain ⟨new, h1, h2⟩ := ih (i + 1)
        { w with svc := t,
                 calls := w.calls ++ [Event.Delete { ID := a } (deleteOptsAt sync n i) none],
                 stdout := w.stdout ++ [a] }
      refine ⟨Event.Delete { ID := a } (deleteOptsAt sync n i) none :: new, ?_, ?_⟩
      · rw [h1]; simp
      · simp only [Served, hd]
        exact ⟨trivial, h2⟩
    · have hstep : deleteLoop ls sync n i (a :: lids) w =
          (some err,
            { w with svc := t,
                     calls := w.calls ++
                       [Event.Delete { ID := a } (deleteOptsAt sync n i) (some err)] }) := by
        simp only [deleteLoop, hd]
      rw [hstep]
      refine ⟨[Event.Delete { ID := a } (deleteOptsAt sync n i) (some err)], rfl, ?_⟩
      simp [Served, hd]

theorem deleteLoop_of_all_ok {σ : Type} (ls : Manager σ) (sync : Bool) (n : Nat)
    (lids : List String) (i : Nat) (w : World σ)
    (hok : ∀ a ∈ (serveDeletes ls w.svc (deleteReqs sync n i lids)).2, a = none) :
    deleteLoop ls sync n i lids w =
      (none, { w with svc := (serveDeletes ls w.svc (deleteReqs sync n i lids)).1,
                      calls := w.calls ++ okDeletes sync n i lids,
                      stdout := w.stdout ++ lids }) := by
  induction lids generalizing i w with
  | nil => simp [deleteLoop, deleteReqs, serveDeletes, okDeletes]
  | cons a lids ih =>
    simp only [deleteReqs, serveDeletes, List.mem_cons, forall_eq_or_imp] at hok
    obtain ⟨h1, h2⟩ := hok
    rcases hd : ls.Delete w.svc { ID := a } (deleteOptsAt sync n i) with ⟨t, res⟩
    rw [hd] at h1 h2
    simp only at h1 h2
    subst h1
    simp only [deleteLoop, hd]
    rw [ih (i + 1) _ h2]
    simp [deleteReqs, serveDeletes, hd, okDeletes]

theorem expectedDeletes_eq_aux (sync : Bool) (n : Nat) (hn : 0 < n) (lids : List String)
    (i : Nat) :
    (lids.enumFrom i).map (fun p =>
      (({ ID := p.2 } : Lease),
        if sync = true ∧ p.1 + 1 = n then [DeleteOpt.SynchronousDelete] else [])) =
      deleteReqs sync n i lids := by
  induction lids generalizing i with
  | nil => simp [deleteReqs]
  | cons a lids ih =>
    simp only [List.enumFrom_cons, List.map_cons, deleteReqs, ih (i + 1), List.cons.injEq,
      Prod.mk.injEq, true_and, and_true]
    have e : (i + 1 = n) ↔ (i = n - 1) := by omega
    cases sync <;> simp [deleteOptsAt, e]

theorem expectedDeletes_eq (sync : Bool) (lids : List String) (hne : lids ≠ []) :
    expectedDeletes sync lids = deleteReqs sync lids.length 0 lids := by
  unfold expectedDeletes List.enum
  exact expectedDeletes_eq_aux sync lids.length (List.length_pos.mpr hne) lids 0

theorem okDeletes_eq_map (sync : Bool) (n : Nat) (lids : List String) (i : Nat) :
    okDeletes sync n i lids =
      (deleteReqs sync n i lids).map (fun q => Event.Delete q.1 q.2 none) := by
  induction lids generalizing i with
  | nil => rfl
  | cons a lids ih => simp [okDeletes, deleteReqs, ih]

/-- C1: for a non-empty list of lease IDs, when the client is obtained and the service
answers every `Delete` request of the list with success, the delete command makes exactly one
`Delete` request per ID to the service, in the order of the arguments, the request at
position `i` carrying `SynchronousDelete` if and only if `--sync` was given and `i` is the
last position; the log holds these requests with the service's answers and the service is
left in the state these requests lead to. -/
theorem deleteCommand_sync_only_last {σ : Type} (env : Env σ) (ls : Manager σ)
    (context : DeleteContext) (s : σ)
    (hne : context.Args ≠ []) (hc : env.NewClient = .ok ls)
    (hok : ∀ a ∈ (serveDeletes ls s (expectedDeletes context.sync context.Args)).2, a = none) :
    (deleteCommand env context { svc := s }).2.calls =
      (expectedDeletes context.sync context.Args).map (fun q => Event.Delete q.1 q.2 none) ∧
    (deleteCommand env context { svc := s }).2.svc =
      (serveDeletes ls s (expectedDeletes context.sync context.Args)).1 ∧
    Served ls s (deleteCommand env context { svc := s }).2.calls
      (deleteCommand env context { svc := s }).2.svc ∧
    (deleteCommand env context { svc := s }).2.calls.length = context.Args.length ∧
    ∀ (i : Nat) (h : i < context.Args.length), ∃ opts,
      (deleteCommand env context { svc := s }).2.calls[i]? =
        some (Event.Delete { ID := context.Args[i] } opts none) ∧
      (DeleteOpt.SynchronousDelete ∈ opts ↔
        context.sync = true ∧ i + 1 = context.Args.length) := by
  have hserved := deleteLoop_served ls context.sync context.Args.length context.Args 0
    { svc := s }
  rw [expectedDeletes_eq _ _ hne] at hok ⊢
  have hrun := deleteLoop_of_all_ok ls context.sync context.Args.length context.Args 0
    { svc := s } hok
  rw [deleteCommand_eq_loop env ls context _ hne hc]
  obtain ⟨new, hn1, hn2⟩ := hserved
  simp only [List.nil_append] at hn1
  rw [← hn1] at hn2
  refine ⟨?_, ?_, hn2, ?_, ?_⟩
  · rw [hrun]; simp [okDeletes_eq_map]
  · rw [hrun]
  · rw [hrun]; simp [okDeletes_length]
  · intro i h
    rw [hrun]
    simp only [List.nil_append]
    refine ⟨deleteOptsAt context.sync context.Args.length (0 + i),
      okDeletes_getElem? _ _ _ 0 i h, ?_⟩
    cases hs : context.sync <;> simp [deleteOptsAt]
    omega

/-- Witness for C1: `delete --sync x y x` against a service on which these deletions
succeed. -/
theorem deleteCommand_sync_only_last_witness :
    (deleteCommand demoEnv { Args := ["x", "y", "x"], sync := true } { svc := 0 }).2.calls =
      [Event.Delete { ID := "x" } [] none, Event.Delete { ID := "y" } [] none,
        Event.Delete { ID := "x" } [DeleteOpt.SynchronousDelete] none] ∧
    (deleteCommand demoEnv { Args := ["x", "y", "x"], sync := true } { svc := 0 }).2.svc = 3 ∧
    Served demoManager 0
      (deleteCommand demoEnv { Args := ["x", "y", "x"], sync := true } { svc := 0 }).2.calls
      (deleteCommand demoEnv { Args := ["x", "y", "x"], sync := true } { svc := 0 }).2.svc :=
  have h := deleteCommand_sync_only_last demoEnv demoManager
    { Args := ["x", "y", "x"], sync := true } 0 (by decide) rfl (by decide)
  ⟨h.1, h.2.1, h.2.2.1⟩

/-- C2: when the client is obtained (and the help shown for an empty argument list reports
no error), the log of the delete command holds the `Delete` requests it made with the answers
the service gave, and the service is left in the state they lead to; the command returns no
error exactly when every one of these requests succeeded; a failed `Delete` makes the command
return that error, having requested the deletion of exactly the IDs up to and including the
failing one, in order, and printed exactly the IDs before it; on success every ID is requested
and printed in order. -/
theorem deleteCommand_stops_at_first_failure {σ : Type} (env : Env σ) (ls : Manager σ)
    (context : DeleteContext) (s : σ)
    (hc : env.NewClient = .ok ls)
    (hh : context.Args = [] → env.ShowSubcommandHelp = none) :
    Served ls s (deleteCommand env context { svc := s }).2.calls
      (deleteCommand env context { svc := s }).2.svc ∧
    ((deleteCommand env context { svc := s }).1 = none ↔
      ∀ lease opts res,
        Event.Delete lease opts res ∈ (deleteCommand env context { svc := s }).2.calls →
          res = none) ∧
    (∀ lease opts err,
      Event.Delete lease opts (some err) ∈ (deleteCommand env context { svc := s }).2.calls →
        (deleteCommand env context { svc := s }).1 = some err) ∧
    (∀ err, (deleteCommand env context { svc := s }).1 = some err →
      ∃ pre lid post optss opts,
        context.Args = pre ++ lid :: post ∧ optss.length = pre.length ∧
        (deleteCommand env context { svc := s }).2.calls =
          List.zipWith (fun lid o => Event.Delete { ID := lid } o none) pre optss ++
            [Event.Delete { ID := lid } opts (some err)] ∧
        (deleteCommand env context { svc := s }).2.stdout = pre) ∧
    ((deleteCommand env context { svc := s }).1 = none →
      (∃ optss, optss.length = context.Args.length ∧
        (deleteCommand env context { svc := s }).2.calls =
          List.zipWith (fun lid o => Event.Delete { ID := lid } o none) context.Args optss) ∧
      (deleteCommand env context { svc := s }).2.stdout = context.Args) := by
  by_cases hne : context.Args = []
  · have h0 : deleteCommand env context { svc := s } =
        (none, { svc := s, helpShown := true }) := by
      simp [deleteCommand, hne, hh hne]
    rw [h0]
    simp [hne, Served]
  · rw [deleteCommand_eq_loop env ls context _ hne hc]
    obtain ⟨new, hn1, hn2⟩ := deleteLoop_served ls context.sync context.Args.length
      context.Args 0 { svc := s }
    simp only [List.nil_append] at hn1
    rw [← hn1] at hn2
    refine ⟨hn2, ?_⟩
    rcases deleteLoop_spec ls context.sync context.Args.length context.Args 0 { svc := s } with
      ⟨h1, h2, h3⟩ | ⟨pre, lid, post, err, h0, h1, h2, h3⟩
    · simp only [List.nil_append] at h2 h3
      have hall : ∀ lease opts res,
          Event.Delete lease opts res ∈ okDeletes context.sync context.Args.length 0
            context.Args → res = none :=
        fun lease opts res h => okDeletes_mem _ _ _ _ lease opts res h
      rw [h1, h2, h3]
      refine ⟨⟨fun _ => hall, fun _ => rfl⟩, ?_, ?_, ?_⟩
      · intro lease opts err h
        have := hall lease opts (some err) h
        simp at this
      · intro err h; simp at h
      · intro _
        obtain ⟨optss, hl, he⟩ := okDeletes_eq_zipWith context.sync context.Args.length
          context.Args 0
        exact ⟨⟨optss, hl, he⟩, rfl⟩
    · simp only [List.nil_append] at h2 h3
      rw [h1, h2, h3]
      refine ⟨⟨fun h => by simp at h, fun h => ?_⟩, ?_, ?_, ?_⟩
      · have := h { ID := lid } (deleteOptsAt context.sync context.Args.length (0 + pre.length))
          (some err) (by simp)
        simp at this
      · intro lease opts e h
        rcases List.mem_append.mp h with h | h
        · have := okDeletes_mem _ _ _ _ lease opts (some e) h
          simp at this
        · simp only [List.mem_singleton, Event.Delete.injEq] at h
          rw [h.2.2]
      · intro e he
        obtain ⟨optss, hl, hz⟩ := okDeletes_eq_zipWith context.sync context.Args.length pre 0
        simp only [Option.some.injEq] at he
        subst he
        exact ⟨pre, lid, post, optss, _, h0, hl, by rw [hz], rfl⟩
      · intro h; simp at h

/-- Witness for C2: `delete x missing y` stops at `missing`. -/
theorem deleteCommand_stops_at_first_failure_witness :
    (deleteCommand demoEnv { Args := ["x", "missing", "y"] } { svc := 0 }).1 =
      some "not found" ∧
    (deleteCommand demoEnv { Args := ["x", "missing", "y"] } { svc := 0 }).2.stdout = ["x"] ∧
    (deleteCommand demoEnv { Args := ["x", "missing", "y"] } { svc := 0 }).2.svc = 2 ∧
    Served demoManager 0
      (deleteCommand demoEnv { Args := ["x", "missing", "y"] } { svc := 0 }).2.calls
      (deleteCommand demoEnv { Args := ["x", "missing", "y"] } { svc := 0 }).2.svc ∧
    ∃ pre lid post optss opts,
      ["x", "missing", "y"] = pre ++ lid :: post ∧ optss.length = pre.length ∧
      (deleteCommand demoEnv { Args := ["x", "missing", "y"] } { svc := 0 }).2.calls =
        List.zipWith (fun lid o => Event.Delete { ID := lid } o none) pre optss ++
          [Event.Delete { ID := lid } opts (some "not found")] ∧
      (deleteCommand demoEnv { Args := ["x", "missing", "y"] } { svc := 0 }).2.stdout = pre :=
  have h := deleteCommand_stops_at_first_failure demoEnv demoManager
    { Args := ["x", "missing", "y"] } 0 rfl (by simp)
  ⟨by decide, by decide, by decide, h.1, h.2.2.2.1 "not found" (by decide)⟩

/-! ## Facts about `strings.Cut` and label maps -/

theorem index_eq_of_not_mem (k v : List Char) (h : '=' ∉ k) :
    strings.Index (k ++ '=' :: v) ['='] = some k.length := by
  induction k with
  | nil => simp [strings.Index, List.isPrefixOf]
  | cons c k ih =>
    have hc : c ≠ '=' := fun e => h (by simp [e])
    have hc' : ¬ '=' = c := fun e => hc e.symm
    have hk : '=' ∉ k := fun e => h (by simp [e])
    simp [strings.Index, List.isPrefixOf, hc', ih hk]

theorem index_none_of_not_mem (a : List Char) (h : '=' ∉ a) :
    strings.Index a ['='] = none := by
  induction a with
  | nil => simp [strings.Index]
  | cons c a ih =>
    have hc : c ≠ '=' := fun e => h (by simp [e])
    have hc' : ¬ '=' = c := fun e => hc e.symm
    have hk : '=' ∉ a := fun e => h (by simp [e])
    simp [strings.Index, List.isPrefixOf, hc', ih hk]

theorem cut_of_splits (arg k v : String) (h : SplitsAtFirstEq arg k v) :
    (strings.Cut arg "=").1 = k ∧ (strings.Cut arg "=").2.1 = v := by
  rcases h with ⟨hk, rfl⟩ | ⟨ha, rfl, rfl⟩
  · have hi := index_eq_of_not_mem k.data v.data hk
    have hd : (k ++ "=" ++ v).data = k.data ++ '=' :: v.data := by
      simp [String.data_append]
    simp only [strings.Cut, hd]
    rw [hi]
    have hdrop : List.drop (k.data.length + 1) (k.data ++ '=' :: v.data) = v.data := by
      rw [List.drop_append_eq_append_drop]
      simp
    refine ⟨by simp, ?_⟩
    apply String.ext
    simpa using hdrop
  · have hi := index_none_of_not_mem k.data ha
    have : ("=" : String).data = ['='] := rfl
    simp only [strings.Cut, this, hi]
    simp

theorem splits_or_not (arg : List Char) :
    (∃ k v, '=' ∉ k ∧ arg = k ++ '=' :: v) ∨ '=' ∉ arg := by
  induction arg with
  | nil => right; simp
  | cons c a ih =>
    by_cases hc : c = '='
    · left; exact ⟨[], a, by simp, by simp [hc]⟩
    · rcases ih with ⟨k, v, hk, rfl⟩ | h
      · left
        refine ⟨c :: k, v, ?_, by simp⟩
        simp only [List.mem_cons, not_or]
        exact ⟨fun e => hc e.symm, hk⟩
      · right
        simp only [List.mem_cons, not_or]
        exact ⟨fun e => hc e.symm, h⟩

theorem splits_cut (arg : String) :
    SplitsAtFirstEq arg (strings.Cut arg "=").1 (strings.Cut arg "=").2.1 := by
  have hex : ∃ k v, SplitsAtFirstEq arg k v := by
    rcases splits_or_not arg.data with ⟨k, v, hk, he⟩ | h
    · refine ⟨⟨k⟩, ⟨v⟩, Or.inl ⟨hk, ?_⟩⟩
      apply String.ext
      simp [String.data_append, he]
    · exact ⟨arg, "", Or.inr ⟨h, rfl, rfl⟩⟩
  obtain ⟨k, v, h⟩ := hex
  obtain ⟨h1, h2⟩ := cut_of_splits arg k v h
  rw [h1, h2]
  exact h

theorem splits_iff_cut (arg k v : String) :
    SplitsAtFirstEq arg k v ↔ (strings.Cut arg "=").1 = k ∧ (strings.Cut arg "=").2.1 = v := by
  constructor
  · exact cut_of_splits arg k v
  · rintro ⟨rfl, rfl⟩
    exact splits_cut arg

theorem Labels.get_set (m : Labels) (k v k' : String) :
    Labels.get (Labels.set m k v) k' = if k' = k then some v else Labels.get m k' := by
  induction m with
  | nil =>
    by_cases h : k' = k
    · simp [Labels.set, Labels.get, h]
    · have h' : ¬ k = k' := fun e => h e.symm
      simp [Labels.set, Labels.get, h, h']
  | cons e m ih =>
    by_cases he : e.1 = k
    · by_cases h : k' = k
      · simp [Labels.set, Labels.get, he, h]
      · have h' : ¬ k = k' := fun e => h e.symm
        simp [Labels.set, Labels.get, he, h, h']
    · by_cases h : k' = k
      · subst h
        simp [Labels.set, Labels.get, he, ih]
      · by_cases h2 : e.1 = k'
        · subst h2
          simp [Labels.set, Labels.get, he, h]
        · simp [Labels.set, Labels.get, he, h2, ih, h]

theorem Labels.mem_keys_set (m : Labels) (k v k' : String) :
    k' ∈ Labels.keys (Labels.set m k v) ↔ k' = k ∨ k' ∈ Labels.keys m := by
  induction m with
  | nil => simp [Labels.set, Labels.keys]
  | cons e m ih =>
    simp only [Labels.keys] at ih
    by_cases he : e.1 = k
    · simp only [Labels.set, he, if_true, Labels.keys, List.map_cons, List.mem_cons]
      tauto
    · simp only [Labels.set, he, if_false, Labels.keys, List.map_cons, List.mem_cons, ih]
      tauto

theorem labelsOf_concat (args : List String) (x : String) :
    labelsOf (args ++ [x]) =
      Labels.set (labelsOf args) (strings.Cut x "=").1 (strings.Cut x "=").2.1 := by
  simp [labelsOf, List.foldl_append]

theorem labelsOf_mem_keys (args : List String) (k : String) :
    k ∈ Labels.keys (labelsOf args) ↔ ∃ a ∈ args, ∃ v, SplitsAtFirstEq a k v := by
  induction args using List.reverseRecOn with
  | nil => simp [labelsOf, Labels.keys]
  | append_singleton args x ih =>
    rw [labelsOf_concat, Labels.mem_keys_set, ih]
    constructor
    · rintro (rfl | ⟨a, ha, v, hv⟩)
      · exact ⟨x, by simp, _, splits_cut x⟩
      · exact ⟨a, by simp [ha], v, hv⟩
    · rintro ⟨a, ha, v, hv⟩
      rcases List.mem_append.mp ha with ha | ha
      · exact Or.inr ⟨a, ha, v, hv⟩
      · simp only [List.mem_singleton] at ha
        subst ha
        exact Or.inl ((splits_iff_cut a k v).mp hv).1.symm

theorem labelsOf_get (args : List String) (k v : String) :
    Labels.get (labelsOf args) k = some v ↔
      ∃ pre a post, args = pre ++ a :: post ∧ SplitsAtFirstEq a k v ∧
        ∀ b ∈ post, ∀ v', ¬ SplitsAtFirstEq b k v' := by
  induction args using List.reverseRecOn with
  | nil => simp [labelsOf, Labels.get]
  | append_singleton args x ih =>
    rw [labelsOf_concat, Labels.get_set]
    by_cases hk : k = (strings.Cut x "=").1
    · rw [if_pos hk]
      constructor
      · intro hv
        simp only [Option.some.injEq] at hv
        refine ⟨args, x, [], rfl, ?_, by simp⟩
        rw [hk, ← hv]
        exact splits_cut x
      · rintro ⟨pre, a, post, he, hs, hpost⟩
        rcases List.eq_nil_or_concat post with rfl | ⟨post', y, rfl⟩
        · have := List.append_inj_right' he (by simp)
          simp only [List.cons.injEq, and_true] at this
          subst this
          rw [((splits_iff_cut x k v).mp hs).2]
        · have hy : y = x := by
            have := List.append_inj_right' (show args ++ [x] = (pre ++ a :: post') ++ [y] by
              simp [he]) (by simp)
            simp only [List.cons.injEq, and_true] at this
            exact this.symm
          subst hy
          exact absurd (hk ▸ splits_cut y) (hpost y (by simp) _)
    · rw [if_neg hk, ih]
      constructor
      · rintro ⟨pre, a, post, he, hs, hpost⟩
        refine ⟨pre, a, post ++ [x], by simp [he], hs, ?_⟩
        intro b hb v' hv'
        rcases List.mem_append.mp hb with hb | hb
        · exact hpost b hb v' hv'
        · simp only [List.mem_singleton] at hb
          subst hb
          exact hk ((splits_iff_cut b k v').mp hv').1.symm
      · rintro ⟨pre, a, post, he, hs, hpost⟩
        rcases List.eq_nil_or_concat post with rfl | ⟨post', y, rfl⟩
        · have := List.append_inj_right' he (by simp)
          simp only [List.cons.injEq, and_true] at this
          subst this
          exact absurd ((splits_iff_cut x k v).mp hs).1.symm hk
        · have he' : args ++ [x] = (pre ++ a :: post') ++ [y] := by simp [he]
          have h1 := List.append_inj_left' he' (by simp)
          refine ⟨pre, a, post', h1, hs, fun b hb => hpost b (by simp [hb])⟩

/-! ## Facts about `createCommand` -/

theorem createOpts_eq (context : CreateContext) :
    createOpts context =
      (if context.Args = [] then [] else [Opt.WithLabels (labelsOf context.Args)]) ++
      (if context.lookupString "id" = "" then [] else [Opt.WithID (context.lookupString "id")]) ++
      (if 0 < context.lookupDuration "expires" then
        [Opt.WithExpiration (context.lookupDuration "expires")] else []) := by
  unfold createOpts labelsOf
  by_cases h1 : context.Args = [] <;>
  by_cases h2 : context.lookupString "id" = "" <;>
  by_cases h3 : 0 < context.lookupDuration "expires" <;>
  simp [h1, h2, h3, List.length_pos]

/-- What `createCommand` does once the client is obtained: one `Create` request with the
assembled options; its error is returned, or the ID of the lease it returns is printed. -/
theorem createCommand_spec {σ : Type} (env : Env σ) (ls : Manager σ)
    (context : CreateContext) (s : σ) (hc : env.NewClient = .ok ls) :
    (createCommand env context { svc := s }).2.calls =
      [Event.Create (createOpts context) (ls.Create s (createOpts context)).2] ∧
    (∀ err, (ls.Create s (createOpts context)).2 = .error err →
      (createCommand env context { svc := s }).1 = some err ∧
      (createCommand env context { svc := s }).2.stdout = []) ∧
    (∀ l, (ls.Create s (createOpts context)).2 = .ok l →
      (createCommand env context { svc := s }).1 = none ∧
      (createCommand env context { svc := s }).2.stdout = [l.ID]) := by
  simp only [createCommand, hc]
  rcases hd : ls.Create s (createOpts context) with ⟨t, err | l⟩ <;> simp

theorem mem_createOpts_id (context : CreateContext) (id : String) :
    Opt.WithID id ∈ createOpts context ↔
      context.lookupString "id" ≠ "" ∧ id = context.lookupString "id" := by
  rw [createOpts_eq]
  by_cases h1 : context.Args = [] <;>
  by_cases h2 : context.lookupString "id" = "" <;>
  by_cases h3 : 0 < context.lookupDuration "expires" <;>
  simp [h1, h2, h3]

theorem mem_createOpts_labels (context : CreateContext) (m : Labels) :
    Opt.WithLabels m ∈ createOpts context ↔ context.Args ≠ [] ∧ m = labelsOf context.Args := by
  rw [createOpts_eq]
  by_cases h1 : context.Args = [] <;>
  by_cases h2 : context.lookupString "id" = "" <;>
  by_cases h3 : 0 < context.lookupDuration "expires" <;>
  simp [h1, h2, h3]

/-- C5, as stated, fails: `create =v a=1 a=2` has an argument with an empty key and two
arguments with the key `a`, yet the command returns no error and issues a `Create` request
with the labels built from these arguments. -/
theorem createCommand_rejects_bad_labels_counterexample :
    SplitsAtFirstEq "=v" "" "v" ∧ SplitsAtFirstEq "a=1" "a" "1" ∧ SplitsAtFirstEq "a=2" "a" "2" ∧
    (createCommand demoEnv { Args := ["=v", "a=1", "a=2"] } { svc := 0 }).1 = none ∧
    (createCommand demoEnv { Args := ["=v", "a=1", "a=2"] } { svc := 0 }).2.calls =
      [Event.Create [Opt.WithLabels [("", "v"), ("a", "2")], Opt.WithExpiration (24 * Hour)]
        (.ok { ID := "generated" })] := by
  refine ⟨Or.inl ⟨by decide, by decide⟩, Or.inl ⟨by decide, by decide⟩,
    Or.inl ⟨by decide, by decide⟩, by decide, rfl⟩

/-- C5, amended: the create command does not validate label keys.  Once the client is
obtained it issues exactly one `Create` request, whatever the label arguments are, and
returns an error exactly when `Create` does; for a non-empty argument list the request carries
the map in which every argument's key is present (the empty key included) and a key given
several times holds the value of the last argument that has it. -/
theorem createCommand_accepts_any_labels {σ : Type} (env : Env σ) (ls : Manager σ)
    (context : CreateContext) (s : σ) (hc : env.NewClient = .ok ls) :
    ∃ opts res, (createCommand env context { svc := s }).2.calls = [Event.Create opts res] ∧
      res = (ls.Create s opts).2 ∧
      ((createCommand env context { svc := s }).1 = none ↔ ∃ l, res = .ok l) ∧
      (∀ err, res = .error err → (createCommand env context { svc := s }).1 = some err) ∧
      (context.Args ≠ [] → ∃ m, Opt.WithLabels m ∈ opts ∧
        (∀ a ∈ context.Args, ∀ k v, SplitsAtFirstEq a k v → k ∈ Labels.keys m) ∧
        (∀ pre a post k v, context.Args = pre ++ a :: post → SplitsAtFirstEq a k v →
          (∀ b ∈ post, ∀ v', ¬ SplitsAtFirstEq b k v') → Labels.get m k = some v)) := by
  obtain ⟨h1, h2, h3⟩ := createCommand_spec env ls context s hc
  refine ⟨_, _, h1, rfl, ?_, fun err he => (h2 err he).1, ?_⟩
  · rcases hd : (ls.Create s (createOpts context)).2 with err | l
    · simp [(h2 err hd).1]
    · simp [(h3 l hd).1]
  · intro hne
    refine ⟨labelsOf context.Args, (mem_createOpts_labels context _).mpr ⟨hne, rfl⟩, ?_, ?_⟩
    · intro a ha k v hs
      exact (labelsOf_mem_keys context.Args k).mpr ⟨a, ha, v, hs⟩
    · intro pre a post k v he hs hpost
      exact (labelsOf_get context.Args k v).mpr ⟨pre, a, post, he, hs, hpost⟩

/-- Witness for the amended C5: `create =v a=1 a=2`. -/
theorem createCommand_accepts_any_labels_witness :
    ∃ opts res, (createCommand demoEnv { Args := ["=v", "a=1", "a=2"] } { svc := 0 }).2.calls =
        [Event.Create opts res] ∧
      ((createCommand demoEnv { Args := ["=v", "a=1", "a=2"] } { svc := 0 }).1 = none ↔
        ∃ l, res = .ok l) := by
  obtain ⟨opts, res, h1, _, h3, _⟩ :=
    createCommand_accepts_any_labels demoEnv demoManager { Args := ["=v", "a=1", "a=2"] } 0 rfl
  exact ⟨opts, res, h1, h3⟩

/-- C8: once the client is obtained, the `Create` request of the create command carries an
explicit-ID option, holding exactly the value of `--id`, if and only if that value is a
non-empty string; without it the service chooses the ID; either way the ID printed on success
is the ID of the lease the service returned. -/
theorem createCommand_id_option {σ : Type} (env : Env σ) (ls : Manager σ)
    (context : CreateContext) (s : σ) (hc : env.NewClient = .ok ls) :
    ∃ opts res, (createCommand env context { svc := s }).2.calls = [Event.Create opts res] ∧
      res = (ls.Create s opts).2 ∧
      (∀ id, Opt.WithID id ∈ opts ↔
        context.lookupString "id" ≠ "" ∧ id = context.lookupString "id") ∧
      (context.id = none → ∀ id, Opt.WithID id ∉ opts) ∧
      (∀ given, context.id = some given → context.lookupString "id" = given) ∧
      (∀ l, res = .ok l →
        (createCommand env context { svc := s }).1 = none ∧
        (createCommand env context { svc := s }).2.stdout = [l.ID]) := by
  obtain ⟨h1, _, h3⟩ := createCommand_spec env ls context s hc
  have hid := mem_createOpts_id context
  refine ⟨_, _, h1, rfl, hid, ?_, ?_, h3⟩
  · intro hn id hm
    have := ((hid id).mp hm).1
    simp [CreateContext.lookupString, hn] at this
  · intro given hg
    simp [CreateContext.lookupString, hg]

/-- Witness for C8: `create --id mine` prints `mine`, the ID of the lease returned. -/
theorem createCommand_id_option_witness :
    (createCommand demoEnv { id := some "mine" } { svc := 0 }).2.stdout = ["mine"] ∧
    ∃ opts res, (createCommand demoEnv { id := some "mine" } { svc := 0 }).2.calls =
        [Event.Create opts res] ∧
      (∀ id, Opt.WithID id ∈ opts ↔ "mine" ≠ "" ∧ id = "mine") := by
  refine ⟨by decide, ?_⟩
  obtain ⟨opts, res, h1, _, h3, _⟩ :=
    createCommand_id_option demoEnv demoManager { id := some "mine" } 0 rfl
  exact ⟨opts, res, h1, h3⟩

/-! ## Facts about `listCommand` -/

theorem foldl_println {σ : Type} (leaseList : List Lease) (w : World σ) :
    leaseList.foldl (fun w l => { w with stdout := w.stdout ++ [l.ID] }) w =
      { w with stdout := w.stdout ++ leaseList.map (·.ID) } := by
  induction leaseList generalizing w with
  | nil => simp
  | cons l ls ih => simp [ih]

theorem foldl_fprintf {σ : Type} (f : Lease → String) (leaseList : List Lease) (w : World σ) :
    leaseList.foldl (fun w l => { w with tw := w.tw ++ [f l] }) w =
      { w with tw := w.tw ++ leaseList.map f } := by
  induction leaseList generalizing w with
  | nil => simp
  | cons l ls ih => simp [ih]

theorem foldl_pairs (f : String × String → String) (labels : Labels) (acc : List String) :
    labels.foldl (fun pairs kv => pairs ++ [f kv]) acc = acc ++ labels.map f := by
  induction labels generalizing acc with
  | nil => simp
  | cons e m ih => simp [ih]

theorem labelsColumn_eq (labels : Labels) (h : labels ≠ []) :
    labelsColumn labels =
      ",".intercalate (sort.Strings (labels.map (fun kv => kv.1 ++ "=" ++ kv.2))) := by
  have hl : 0 < labels.length := List.length_pos.mpr h
  simp only [labelsColumn, gt_iff_lt, hl, if_true, strings.Join]
  rw [foldl_pairs (fun kv => kv.1 ++ "=" ++ kv.2)]
  simp

theorem sortStrings_perm_eq (x y : List String) (h : x.Perm y) :
    sort.Strings x = sort.Strings y := by
  apply @List.eq_of_perm_of_sorted String (· ≤ ·)
  · exact ((List.perm_insertionSort _ x).trans h).trans (List.perm_insertionSort _ y).symm
  · exact List.sorted_insertionSort _ x
  · exact List.sorted_insertionSort _ y

/-- C7: in quiet mode, once the client is obtained and `List` has returned a sequence of
leases, the list command has made one `List` request with the filter arguments unchanged,
printed exactly the IDs of the returned leases, one per `Println`, in the order returned, and
nothing else, and returns no error; for an empty sequence it prints nothing. -/
theorem listCommand_quiet_prints_ids {σ : Type} (env : Env σ) (ls : Manager σ)
    (context : ListContext) (s : σ) (leaseList : List Lease)
    (hc : env.NewClient = .ok ls) (hq : context.quiet = true)
    (hl : (ls.List s context.Args).2 = .ok leaseList) :
    (listCommand env context { svc := s }).1 = none ∧
    (listCommand env context { svc := s }).2.calls =
      [Event.List context.Args (.ok leaseList)] ∧
    (listCommand env context { svc := s }).2.stdout = leaseList.map (·.ID) ∧
    (listCommand env context { svc := s }).2.tw = [] ∧
    (listCommand env context { svc := s }).2.helpShown = false ∧
    (leaseList = [] → (listCommand env context { svc := s }).2.stdout = []) := by
  rcases hd : ls.List s context.Args with ⟨t, res⟩
  rw [hd] at hl
  simp only at hl
  subst hl
  simp only [listCommand, hc, hd, hq, if_true, foldl_println]
  simp

/-- Witness for C7: `list -q some-filter` against a service returning the leases `a`, `b`. -/
theorem listCommand_quiet_prints_ids_witness :
    (listCommand demoEnv { Args := ["id==a"], quiet := true } { svc := 0 }).1 = none ∧
    (listCommand demoEnv { Args := ["id==a"], quiet := true } { svc := 0 }).2.calls =
      [Event.List ["id==a"]
        (.ok [{ ID := "a" }, { ID := "b", Labels := [("zone", "eu"), ("app", "web")] }])] ∧
    (listCommand demoEnv { Args := ["id==a"], quiet := true } { svc := 0 }).2.stdout =
      ["a", "b"] :=
  have h := listCommand_quiet_prints_ids demoEnv demoManager
    { Args := ["id==a"], quiet := true } 0
    [{ ID := "a" }, { ID := "b", Labels := [("zone", "eu"), ("app", "web")] }] rfl rfl rfl
  ⟨h.1, h.2.1, h.2.2.1⟩

/-- C9: in non-quiet mode, once the client is obtained and `List` has returned a sequence of
leases, the table holds one row per lease whose LABELS column is `-` when the lease has no
labels and otherwise the strings `key=value` of its labels, each once, in ascending order,
joined by `,`; the column is the same for every order in which the map is iterated. -/
theorem listCommand_labels_column {σ : Type} (env : Env σ) (ls : Manager σ)
    (context : ListContext) (s : σ) (leaseList : List Lease)
    (hc : env.NewClient = .ok ls) (hq : context.quiet = false)
    (hl : (ls.List s context.Args).2 = .ok leaseList) :
    ∃ column : Labels → String,
      (listCommand env context { svc := s }).2.tw =
        "ID\tCREATED AT\tLABELS\t\n" ::
          leaseList.map (fun l =>
            l.ID ++ "\t" ++ env.formatTime l.CreatedAt ++ "\t" ++ column l.Labels ++ "\t\n") ∧
      ∀ labels : Labels,
        (labels = [] → column labels = "-") ∧
        (labels ≠ [] → ∃ pairs : List String,
          pairs.Perm (labels.map (fun kv => kv.1 ++ "=" ++ kv.2)) ∧
          pairs.Sorted (· ≤ ·) ∧
          column labels = ",".intercalate pairs) ∧
        (∀ other : Labels, other.Perm labels → column other = column labels) := by
  refine ⟨labelsColumn, ?_, fun labels => ⟨?_, ?_, ?_⟩⟩
  · rcases hd : ls.List s context.Args with ⟨t, res⟩
    rw [hd] at hl
    simp only at hl
    subst hl
    simp only [listCommand, hc, hd, hq, foldl_fprintf]
    simp [leaseRow]
  · intro h
    simp [labelsColumn, h]
  · intro h
    refine ⟨sort.Strings (labels.map (fun kv => kv.1 ++ "=" ++ kv.2)), ?_, ?_,
      labelsColumn_eq labels h⟩
    · exact List.perm_insertionSort _ _
    · exact List.sorted_insertionSort _ _
  · intro other hp
    by_cases h : labels = []
    · subst h
      rw [List.Perm.eq_nil hp]
    · have ho : other ≠ [] := fun e => h (by rw [e] at hp; exact List.Perm.eq_nil hp.symm)
      rw [labelsColumn_eq labels h, labelsColumn_eq other ho]
      rw [sortStrings_perm_eq _ _ (hp.map _)]

/-- Witness for C9: `list` against a service returning a lease without labels and a lease
with the labels `zone=eu` and `app=web`. -/
theorem listCommand_labels_column_witness :
    labelsColumn [("zone", "eu"), ("app", "web")] = "app=web,zone=eu" ∧
    ∃ column : Labels → String,
      (listCommand demoEnv { } { svc := 0 }).2.tw =
        "ID\tCREATED AT\tLABELS\t\n" ::
          [{ ID := "a" }, { ID := "b", Labels := [("zone", "eu"), ("app", "web")] }].map
            (fun l : Lease =>
              l.ID ++ "\t" ++ demoEnv.formatTime l.CreatedAt ++ "\t" ++ column l.Labels ++
                "\t\n") ∧
      column [] = "-" ∧
      column [("app", "web"), ("zone", "eu")] = column [("zone", "eu"), ("app", "web")] := by
  refine ⟨?_, ?_⟩
  · simp [labelsColumn, sort.Strings, strings.Join]
    decide
  · obtain ⟨column, h1, h2⟩ := listCommand_labels_column demoEnv demoManager { } 0
      [{ ID := "a" }, { ID := "b", Labels := [("zone", "eu"), ("app", "web")] }] rfl rfl rfl
    refine ⟨column, h1, (h2 []).1 rfl, (h2 [("zone", "eu"), ("app", "web")]).2.2 _ ?_⟩
    exact List.Perm.swap _ _ _

end Leases

namespace Server

open Leases (Error)

/-! ## Facts about `GetContainerEvents` -/

/-- What the receive loop does: either every event is sent and the loop ends on the closed
channel (or blocks on the open one), or it stops at the first failing `Send`. -/
theorem receiveLoop_spec {τ ε : Type} (s : EventsServer τ ε) (closed : Bool)
    (events : List ε) (sub : Subscriber τ ε) :
    ((receiveLoop s closed events sub).1 =
        (if closed then Outcome.returned none else Outcome.blocked) ∧
      (receiveLoop s closed events sub).2.sent = sub.sent ++ events.map (fun e => (e, none))) ∨
    (∃ pre event post err, events = pre ++ event :: post ∧
      (receiveLoop s closed events sub).1 = Outcome.returned (some err) ∧
      (receiveLoop s closed events sub).2.sent =
        sub.sent ++ pre.map (fun e => (e, none)) ++ [(event, some err)]) := by
  induction events generalizing sub with
  | nil => left; simp [receiveLoop]
  | cons a events ih =>
    rcases hd : s.Send sub.stream a with ⟨t, _ | err⟩
    · have hstep : receiveLoop s closed (a :: events) sub =
          receiveLoop s closed events { stream := t, sent := sub.sent ++ [(a, none)] } := by
        simp only [receiveLoop, hd]
      rw [hstep]
      rcases ih { stream := t, sent := sub.sent ++ [(a, none)] } with
        ⟨h1, h2⟩ | ⟨pre, event, post, err, h0, h1, h2⟩
      · left
        exact ⟨h1, by rw [h2]; simp⟩
      · right
        exact ⟨a :: pre, event, post, err, by simp [h0], h1, by rw [h2]; simp⟩
    · have hstep : receiveLoop s closed (a :: events) sub =
          (Outcome.returned (some err),
            { stream := t, sent := sub.sent ++ [(a, some err)] }) := by
        simp only [receiveLoop, hd]
      rw [hstep]
      right
      exact ⟨[], a, events, err, rfl, rfl, by simp⟩

theorem receiveLoop_delivered {τ ε : Type} (s : EventsServer τ ε) (closed : Bool)
    (events : List ε) (sub : Subscriber τ ε) :
    ∃ new, (receiveLoop s closed events sub).2.sent = sub.sent ++ new ∧
      Delivered s sub.stream new (receiveLoop s closed events sub).2.stream := by
  induction events generalizing sub with
  | nil => exact ⟨[], by simp [receiveLoop], by simp [receiveLoop, Delivered]⟩
  | cons a events ih =>
    rcases hd : s.Send sub.stream a with ⟨t, _ | err⟩
    · have hstep : receiveLoop s closed (a :: events) sub =
          receiveLoop s closed events { stream := t, sent := sub.sent ++ [(a, none)] } := by
        simp only [receiveLoop, hd]
      rw [hstep]
      obtain ⟨new, h1, h2⟩ := ih { stream := t, sent := sub.sent ++ [(a, none)] }
      refine ⟨(a, none) :: new, by rw [h1]; simp, ?_⟩
      simp only [Delivered, hd]
      exact ⟨trivial, h2⟩
    · have hstep : receiveLoop s closed (a :: events) sub =
          (Outcome.returned (some err),
            { stream := t, sent := sub.sent ++ [(a, some err)] }) := by
        simp only [receiveLoop, hd]
      rw [hstep]
      exact ⟨[(a, some err)], rfl, by simp [Delivered, hd]⟩

/-- C10: `GetContainerEvents` calls `Send` on the stream for the events of the channel, in
channel order, the record holding the stream's own results and the stream being left in the
state these calls lead to; a failing `Send` is the last call made and its error is what the
call returns; unless a `Send` fails every event is sent; and the call returns `nil` if and only
if every event was sent successfully and the channel was closed (on a channel still open it
stays blocked after the last event). -/
theorem GetContainerEvents_sends_in_order {τ ε : Type} (ch : Chan ε) (s : EventsServer τ ε)
    (t : τ) :
    Delivered s t (GetContainerEvents ch s { stream := t }).2.sent
      (GetContainerEvents ch s { stream := t }).2.stream ∧
    ((GetContainerEvents ch s { stream := t }).2.sent.map (·.1) <+: ch.events) ∧
    (∀ event err, (event, some err) ∈ (GetContainerEvents ch s { stream := t }).2.sent →
      (GetContainerEvents ch s { stream := t }).1 = Outcome.returned (some err)) ∧
    (∀ err, (GetContainerEvents ch s { stream := t }).1 = Outcome.returned (some err) →
      ∃ pre event post, ch.events = pre ++ event :: post ∧
        (GetContainerEvents ch s { stream := t }).2.sent =
          pre.map (fun e => (e, none)) ++ [(event, some err)]) ∧
    ((∀ event err, (event, some err) ∉ (GetContainerEvents ch s { stream := t }).2.sent) →
      (GetContainerEvents ch s { stream := t }).2.sent = ch.events.map (fun e => (e, none))) ∧
    ((GetContainerEvents ch s { stream := t }).1 = Outcome.returned none ↔
      (GetContainerEvents ch s { stream := t }).2.sent = ch.events.map (fun e => (e, none)) ∧
      ch.closed = true) ∧
    ((GetContainerEvents ch s { stream := t }).1 = Outcome.blocked ↔
      (GetContainerEvents ch s { stream := t }).2.sent = ch.events.map (fun e => (e, none)) ∧
      ch.closed = false) := by
  unfold GetContainerEvents
  obtain ⟨new, hn1, hn2⟩ := receiveLoop_delivered s ch.closed ch.events { stream := t }
  simp only [List.nil_append] at hn1
  rw [← hn1] at hn2
  refine ⟨hn2, ?_⟩
  rcases receiveLoop_spec s ch.closed ch.events { stream := t } with
    ⟨h1, h2⟩ | ⟨pre, event, post, err, h0, h1, h2⟩
  · simp only [List.nil_append] at h2
    rw [h1, h2]
    refine ⟨?_, ?_, ?_, fun _ => rfl, ?_, ?_⟩
    · simp [List.map_map, Function.comp_def]
    · intro event err h
      simp at h
    · intro err h
      cases hc : ch.closed <;> simp [hc] at h
    · cases hc : ch.closed <;> simp
    · cases hc : ch.closed <;> simp
  · simp only [List.nil_append] at h2
    have hmem : (event, some err) ∈
        List.map (fun e => (e, (none : Option Error))) pre ++ [(event, some err)] := by simp
    have hne : List.map (fun e => (e, (none : Option Error))) pre ++ [(event, some err)] ≠
        List.map (fun e => (e, (none : Option Error))) ch.events := by
      intro h
      rw [h] at hmem
      simp at hmem
    rw [h1, h2]
    refine ⟨?_, ?_, ?_, ?_, ?_, ?_⟩
    · rw [h0]
      simp only [List.map_append, List.map_map, List.map_cons, List.map_nil]
      refine ⟨post, ?_⟩
      simp [Function.comp_def]
    · intro ev e h
      simp only [List.mem_append, List.mem_map, Prod.mk.injEq, List.mem_singleton] at h
      rcases h with ⟨_, _, _, h⟩ | ⟨_, h⟩
      · simp at h
      · simp only [Option.some.injEq] at h
        rw [h]
    · intro e he
      simp only [Outcome.returned.injEq, Option.some.injEq] at he
      subst he
      exact ⟨pre, event, post, h0, rfl⟩
    · intro h
      exact absurd hmem (h event err)
    · constructor
      · intro h; simp at h
      · rintro ⟨h, _⟩
        exact absurd h hne
    · constructor
      · intro h; simp at h
      · rintro ⟨h, _⟩
        exact absurd h hne

end Server
